import Mathlib

/-!
Verification development for the breadboard graph-traversal engine and
its visual editor.  The wiring state, traversal machine, checkpoint
token and probe channel are modelled from the specification (the
engine's implementation ships outside the sampled sources; only its
type declarations in `packages/breadboard/src/types.ts` are present).
The `canParse` helper and the module editor's save path are translated
directly from `packages/visual-editor/src/commands/commands.ts` and the
module editor source.
-/

namespace Breadboard

/-- Node identifiers, as in `NodeIdentifier` of types.ts. -/
abbrev NodeIdentifier := String

/-- Port names (input/output identifiers). -/
abbrev PortName := String

/-- Values carried along edges (`NodeValue`); modelled as naturals,
which suffices for the spec's concrete scenarios such as `{out: 1}`. -/
abbrev NodeValue := Nat

/-- Association-list lookup with decidable string keys. -/
def alookup {α : Type} : List (String × α) → String → Option α
  | [], _ => none
  | (k, v) :: rest, p => if k = p then some v else alookup rest p

/-- Association-list insert-or-update: replaces the first binding of
the key, or appends a fresh binding at the end. -/
def aset {α : Type} : List (String × α) → String → α → List (String × α)
  | [], k, v => [(k, v)]
  | (k', v') :: rest, k, v =>
      if k' = k then (k, v) :: rest else (k', v') :: aset rest k v

theorem alookup_aset_self {α : Type} (m : List (String × α)) (k : String) (v : α) :
    alookup (aset m k v) k = some v := by
  induction m with
  | nil => simp [aset, alookup]
  | cons hd tl ih =>
      obtain ⟨k', v'⟩ := hd
      by_cases h : k' = k; all_goals simp_all [aset, alookup]

theorem alookup_aset_ne {α : Type} (m : List (String × α)) (k k' : String) (v : α)
    (h : k' ≠ k) : alookup (aset m k v) k' = alookup m k' := by
  induction m with
  | nil => simp [aset, alookup, Ne.symm h]
  | cons hd tl ih =>
      obtain ⟨k0, v0⟩ := hd
      by_cases h0 : k0 = k
      · subst h0
        simp [aset, alookup, Ne.symm h]
      · simp [aset, h0, alookup]
        by_cases h1 : k0 = k' <;> simp [h1, ih]

/-- An edge of the graph (`Edge` in types.ts): source node and output
port, target node and input port, and the `constant` flag.  The TS
field names `from` and `in` are Lean keywords and are rendered as
`fromNode` / `inPort`, and `to` (also a keyword) as `toNode`. -/
structure Edge where
  fromNode : NodeIdentifier
  out : PortName
  toNode : NodeIdentifier
  inPort : PortName
  constant : Bool
deriving DecidableEq, Repr

/-- The `NodeValuesQueues` type: map from port name to the FIFO queue of pending
values for that port. -/
abbrev NodeValuesQueues := List (PortName × List NodeValue)

/-- The `NodeValuesQueuesMap` type: map from node identifier to its per-port
queues. -/
abbrev NodeValuesQueuesMap := List (NodeIdentifier × NodeValuesQueues)

/-- The queue stored in `m` for port `p` of node `n` (empty when
absent). -/
def qGet (m : NodeValuesQueuesMap) (n : NodeIdentifier) (p : PortName) :
    List NodeValue :=
  ((alookup ((alookup m n).getD []) p).getD [])

/-- Replace the queue for port `p` of node `n` by `vs`. -/
def qSet (m : NodeValuesQueuesMap) (n : NodeIdentifier) (p : PortName)
    (vs : List NodeValue) : NodeValuesQueuesMap :=
  aset m n (aset ((alookup m n).getD []) p vs)

theorem qGet_qSet_self (m : NodeValuesQueuesMap) (n : NodeIdentifier)
    (p : PortName) (vs : List NodeValue) : qGet (qSet m n p vs) n p = vs := by
  simp [qGet, qSet, alookup_aset_self]

theorem qGet_qSet_ne (m : NodeValuesQueuesMap) (n n' : NodeIdentifier)
    (p p' : PortName) (vs : List NodeValue) (h : n' ≠ n ∨ p' ≠ p) :
    qGet (qSet m n p vs) n' p' = qGet m n' p' := by
  by_cases hn : n' = n
  · subst hn
    rcases h with h | h
    · exact absurd rfl h
    · simp [qGet, qSet, alookup_aset_self, alookup_aset_ne _ _ _ _ h]
  · simp [qGet, qSet, alookup_aset_ne _ _ _ _ hn]

/-- Modelled from the spec: `QueuedNodeValuesState` of types.ts — "for
every node, a queue of delivered values per input port (FIFO; insertion
order = delivery order) plus a separate constants mapping per input
port (last-write-wins, always available, never dequeued)".  The
implementation of this interface is not among the sampled sources. -/
structure QueuedNodeValuesState where
  state : NodeValuesQueuesMap
  constants : NodeValuesQueuesMap
deriving DecidableEq, Repr

/-- Output values produced by a node firing (`OutputValues`). -/
abbrev OutputValues := List (PortName × NodeValue)

/-- Input values gathered for a node (`InputValues`). -/
abbrev InputValues := List (PortName × NodeValue)

/-- Deliver one value over one edge: a non-constant edge appends to the
target port's FIFO queue; a constant edge overwrites the target port's
constants entry (last-write-wins). -/
def wireOne (s : QueuedNodeValuesState) (e : Edge) (v : NodeValue) :
    QueuedNodeValuesState :=
  if e.constant then
    { s with constants := qSet s.constants e.toNode e.inPort [v] }
  else
    { s with state := qSet s.state e.toNode e.inPort (qGet s.state e.toNode e.inPort ++ [v]) }

/-- Modelled from the spec: `wireOutputs(opportunities, outputs)` — "for
every edge in `edges` whose source port matches an entry in
`outputValues`, appends (constant edge: overwrites) the value into the
target's queue/constants.  Edges whose source port is absent in
`outputValues` are dropped silently."  (implementation absent from the
sampled sources). -/
def wireOutputs (s : QueuedNodeValuesState) (opportunities : List Edge)
    (outputs : OutputValues) : QueuedNodeValuesState :=
  opportunities.foldl
    (fun st e =>
      match alookup outputs e.out with
      | none => st
      | some v => wireOne st e v)
    s

/-- The value visible at port `p` of node `n`: the head of the FIFO
queue when the queue is non-empty, otherwise the constants entry. -/
def availableInput (s : QueuedNodeValuesState) (n : NodeIdentifier)
    (p : PortName) : Option NodeValue :=
  match (qGet s.state n p).head? with
  | some v => some v
  | none => (qGet s.constants n p).head?

/-- Merge two input records; bindings of `add` override bindings of
`base` (the JS object-spread `{...base, ...add}`). -/
def mergeValues (base add : InputValues) : InputValues :=
  base.filter (fun pv => (alookup add pv.1).isNone) ++ add

/-- The ports of node `n` present in map `m`. -/
def portsOf (m : NodeValuesQueuesMap) (n : NodeIdentifier) : List PortName :=
  ((alookup m n).getD []).map (·.1)

/-- Modelled from the spec: `getAvailableInputs(nodeId)` — "merges, for
each input port, the constants value (if any) with the head of the FIFO
queue (if any) ...  If both exist for the same port, the queued value
takes precedence" (implementation absent from the sampled sources). -/
def getAvailableInputs (s : QueuedNodeValuesState) (n : NodeIdentifier) :
    InputValues :=
  let cvals := ((alookup s.constants n).getD []).filterMap
    (fun pv => (pv.2.head?).map (fun v => (pv.1, v)))
  let qvals := ((alookup s.state n).getD []).filterMap
    (fun pv => (pv.2.head?).map (fun v => (pv.1, v)))
  mergeValues cvals qvals

/-- Modelled from the spec: `useInputs(node, inputs)` — "dequeues one
value from each port's FIFO that was consumed as a non-constant;
constants are left untouched" (implementation absent from the sampled
sources). -/
def useInputs (s : QueuedNodeValuesState) (n : NodeIdentifier)
    (inputs : InputValues) : QueuedNodeValuesState :=
  { s with
    state := inputs.foldl
      (fun m pv => qSet m n pv.1 (qGet m n pv.1).tail) s.state }

/-- The sequence of values that a `wireOutputs(es, o)` call delivers to
port `p` of node `n` over edges with constant flag `c`, in edge order:
one value per edge targeting `(n, p)` whose source port is present in
`o`. -/
def deliveries (es : List Edge) (o : OutputValues) (n : NodeIdentifier)
    (p : PortName) (c : Bool) : List NodeValue :=
  (es.filter (fun e => e.constant == c && e.toNode == n && e.inPort == p)).filterMap
    (fun e => alookup o e.out)

theorem wireOutputs_cons_none (s : QueuedNodeValuesState) (e : Edge)
    (rest : List Edge) (o : OutputValues) (h : alookup o e.out = none) :
    wireOutputs s (e :: rest) o = wireOutputs s rest o := by
  simp only [wireOutputs, List.foldl, h]

theorem wireOutputs_cons_some (s : QueuedNodeValuesState) (e : Edge)
    (rest : List Edge) (o : OutputValues) (v : NodeValue)
    (h : alookup o e.out = some v) :
    wireOutputs s (e :: rest) o = wireOutputs (wireOne s e v) rest o := by
  simp only [wireOutputs, List.foldl, h]

theorem deliveries_cons_hit (e : Edge) (rest : List Edge) (o : OutputValues)
    (n : NodeIdentifier) (p : PortName) (c : Bool) (v : NodeValue)
    (h : alookup o e.out = some v) (hc : e.constant = c) (hn : e.toNode = n)
    (hp : e.inPort = p) :
    deliveries (e :: rest) o n p c = v :: deliveries rest o n p c := by
  subst hc; subst hn; subst hp
  simp [deliveries, List.filter_cons, List.filterMap_cons, h]

theorem deliveries_cons_miss (e : Edge) (rest : List Edge) (o : OutputValues)
    (n : NodeIdentifier) (p : PortName) (c : Bool)
    (h : alookup o e.out = none ∨ e.constant ≠ c ∨ e.toNode ≠ n ∨ e.inPort ≠ p) :
    deliveries (e :: rest) o n p c = deliveries rest o n p c := by
  rcases h with h | h | h | h
  · simp only [deliveries, List.filter_cons]
    split
    · simp [List.filterMap_cons, h]
    · rfl
  all_goals simp [deliveries, List.filter_cons, h]

theorem target_split {e : Edge} {n : NodeIdentifier} {p : PortName}
    (htgt : ¬(e.toNode = n ∧ e.inPort = p)) : e.toNode ≠ n ∨ e.inPort ≠ p := by
  by_cases h1 : e.toNode = n
  · right
    intro h2
    exact htgt ⟨h1, h2⟩
  · left
    exact h1

/-- Characterisation of the FIFO side of `wireOutputs`: the queue at
`(n, p)` is extended by exactly the non-constant deliveries targeting
it, in edge order. -/
theorem wireOutputs_state (es : List Edge) (o : OutputValues)
    (s : QueuedNodeValuesState) (n : NodeIdentifier) (p : PortName) :
    qGet (wireOutputs s es o).state n p =
      qGet s.state n p ++ deliveries es o n p false := by
  induction es generalizing s with
  | nil => simp [wireOutputs, deliveries]
  | cons e rest ih =>
      cases ho : alookup o e.out with
      | none =>
          rw [wireOutputs_cons_none _ _ _ _ ho, ih,
            deliveries_cons_miss _ _ _ _ _ _ (Or.inl ho)]
      | some v =>
          cases hcon : e.constant with
          | true =>
              rw [wireOutputs_cons_some _ _ _ _ _ ho, ih,
                deliveries_cons_miss _ _ _ _ _ _ (Or.inr (Or.inl (by simp [hcon])))]
              have hst : (wireOne s e v).state = s.state := by
                simp [wireOne, hcon]
              rw [hst]
          | false =>
              by_cases htgt : e.toNode = n ∧ e.inPort = p
              · obtain ⟨ht1, ht2⟩ := htgt
                rw [wireOutputs_cons_some _ _ _ _ _ ho, ih,
                  deliveries_cons_hit _ _ _ _ _ _ _ ho hcon ht1 ht2]
                have hst : qGet (wireOne s e v).state n p = qGet s.state n p ++ [v] := by
                  have h2 : (wireOne s e v).state =
                      qSet s.state e.toNode e.inPort (qGet s.state e.toNode e.inPort ++ [v]) := by
                    simp [wireOne, hcon]
                  rw [h2, ht1, ht2, qGet_qSet_self]
                rw [hst, List.append_cons, List.append_assoc]
                simp
              · have hne := target_split htgt
                rw [wireOutputs_cons_some _ _ _ _ _ ho, ih,
                  deliveries_cons_miss _ _ _ _ _ _
                    (by rcases hne with h | h
                        · exact Or.inr (Or.inr (Or.inl h))
                        · exact Or.inr (Or.inr (Or.inr h)))]
                have hst : qGet (wireOne s e v).state n p = qGet s.state n p := by
                  have h2 : (wireOne s e v).state =
                      qSet s.state e.toNode e.inPort (qGet s.state e.toNode e.inPort ++ [v]) := by
                    simp [wireOne, hcon]
                  rw [h2]
                  exact qGet_qSet_ne _ _ _ _ _ _
                    (by rcases hne with h | h
                        · exact Or.inl (Ne.symm h)
                        · exact Or.inr (Ne.symm h))
                rw [hst]

/-- Characterisation of the constants side of `wireOutputs`: each
constant delivery targeting `(n, p)` overwrites the entry
(last-write-wins); without any, the entry is unchanged. -/
theorem wireOutputs_constants (es : List Edge) (o : OutputValues)
    (s : QueuedNodeValuesState) (n : NodeIdentifier) (p : PortName) :
    qGet (wireOutputs s es o).constants n p =
      (deliveries es o n p true).foldl (fun _ v => [v]) (qGet s.constants n p) := by
  induction es generalizing s with
  | nil => simp [wireOutputs, deliveries]
  | cons e rest ih =>
      cases ho : alookup o e.out with
      | none =>
          rw [wireOutputs_cons_none _ _ _ _ ho, ih,
            deliveries_cons_miss _ _ _ _ _ _ (Or.inl ho)]
      | some v =>
          cases hcon : e.constant with
          | false =>
              rw [wireOutputs_cons_some _ _ _ _ _ ho, ih,
                deliveries_cons_miss _ _ _ _ _ _ (Or.inr (Or.inl (by simp [hcon])))]
              have hst : (wireOne s e v).constants = s.constants := by
                simp [wireOne, hcon]
              rw [hst]
          | true =>
              by_cases htgt : e.toNode = n ∧ e.inPort = p
              · obtain ⟨ht1, ht2⟩ := htgt
                rw [wireOutputs_cons_some _ _ _ _ _ ho, ih,
                  deliveries_cons_hit _ _ _ _ _ _ _ ho hcon ht1 ht2, List.foldl_cons]
                have hst : qGet (wireOne s e v).constants n p = [v] := by
                  have h2 : (wireOne s e v).constants =
                      qSet s.constants e.toNode e.inPort [v] := by
                    simp [wireOne, hcon]
                  rw [h2, ht1, ht2, qGet_qSet_self]
                rw [hst]
              · have hne := target_split htgt
                rw [wireOutputs_cons_some _ _ _ _ _ ho, ih,
                  deliveries_cons_miss _ _ _ _ _ _
                    (by rcases hne with h | h
                        · exact Or.inr (Or.inr (Or.inl h))
                        · exact Or.inr (Or.inr (Or.inr h)))]
                have hst : qGet (wireOne s e v).constants n p = qGet s.constants n p := by
                  have h2 : (wireOne s e v).constants =
                      qSet s.constants e.toNode e.inPort [v] := by
                    simp [wireOne, hcon]
                  rw [h2]
                  exact qGet_qSet_ne _ _ _ _ _ _
                    (by rcases hne with h | h
                        · exact Or.inl (Ne.symm h)
                        · exact Or.inr (Ne.symm h))
                rw [hst]

/-- Frame condition: `wireOutputs` never touches the queues of a non-constant edge's
source node, nor of any node that is not a matching edge's target. -/
theorem wireOutputs_state_frame (es : List Edge) (o : OutputValues)
    (s : QueuedNodeValuesState) (n : NodeIdentifier) (p : PortName)
    (h : deliveries es o n p false = []) :
    qGet (wireOutputs s es o).state n p = qGet s.state n p := by
  rw [wireOutputs_state, h, List.append_nil]

theorem wireOutputs_constants_frame (es : List Edge) (o : OutputValues)
    (s : QueuedNodeValuesState) (n : NodeIdentifier) (p : PortName)
    (h : deliveries es o n p true = []) :
    qGet (wireOutputs s es o).constants n p = qGet s.constants n p := by
  rw [wireOutputs_constants, h]
  rfl

/-- Constants are untouched by `useInputs`. -/
theorem useInputs_constants (s : QueuedNodeValuesState) (n : NodeIdentifier)
    (inputs : InputValues) : (useInputs s n inputs).constants = s.constants := by
  simp [useInputs]

theorem useInputs_foldl_qGet (inputs : InputValues) (m : NodeValuesQueuesMap)
    (n n' : NodeIdentifier) (p : PortName) :
    qGet (inputs.foldl (fun m pv => qSet m n pv.1 (qGet m n pv.1).tail) m) n' p =
      if n' = n then
        (qGet m n' p).drop (inputs.countP (fun pv => pv.1 == p))
      else qGet m n' p := by
  induction inputs generalizing m with
  | nil => simp
  | cons pv rest ih =>
      rw [List.foldl_cons, ih]
      by_cases hn : n' = n
      · subst hn
        simp only [if_pos rfl]
        by_cases hp : pv.1 = p
        · subst hp
          rw [qGet_qSet_self, ← List.drop_one, List.drop_drop]
          simp [List.countP_cons, Nat.add_comm]
        · rw [qGet_qSet_ne _ _ _ _ _ _ (Or.inr (Ne.symm hp))]
          simp [List.countP_cons, hp]
      · simp only [if_neg hn]
        rw [qGet_qSet_ne _ _ _ _ _ _ (Or.inl hn)]

/-- Dequeue characterisation of `useInputs`: each port's FIFO loses one
value (its head) per consumed entry for that port; other nodes' queues
are untouched. -/
theorem useInputs_qGet (s : QueuedNodeValuesState) (n n' : NodeIdentifier)
    (p : PortName) (inputs : InputValues) :
    qGet (useInputs s n inputs).state n' p =
      if n' = n then
        (qGet s.state n' p).drop (inputs.countP (fun pv => pv.1 == p))
      else qGet s.state n' p := by
  simp only [useInputs]
  exact useInputs_foldl_qGet inputs s.state n n' p

theorem alookup_append {α : Type} (l1 l2 : List (String × α)) (p : String) :
    alookup (l1 ++ l2) p =
      match alookup l1 p with
      | some v => some v
      | none => alookup l2 p := by
  induction l1 with
  | nil => simp [alookup]
  | cons hd tl ih =>
      obtain ⟨k, v⟩ := hd
      by_cases h : k = p <;> simp [alookup, h, ih]

theorem alookup_filter_none {α : Type} (pred : String × α → Bool)
    (l : List (String × α)) (p : String)
    (h : ∀ pv ∈ l, pv.1 = p → pred pv = false) :
    alookup (l.filter pred) p = none := by
  induction l with
  | nil => simp [alookup]
  | cons hd tl ih =>
      rw [List.filter_cons]
      by_cases hpred : pred hd = true
      · rw [if_pos hpred]
        have hk : hd.1 ≠ p := by
          intro hk
          rw [h hd (by simp) hk] at hpred
          exact Bool.false_ne_true hpred
        obtain ⟨k, v⟩ := hd
        simp only [alookup]
        rw [if_neg hk]
        exact ih (fun pv hm => h pv (by simp [hm]))
      · rw [if_neg hpred]
        exact ih (fun pv hm => h pv (by simp [hm]))

theorem alookup_filter_all {α : Type} (pred : String × α → Bool)
    (l : List (String × α)) (p : String)
    (h : ∀ pv ∈ l, pv.1 = p → pred pv = true) :
    alookup (l.filter pred) p = alookup l p := by
  induction l with
  | nil => simp
  | cons hd tl ih =>
      rw [List.filter_cons]
      obtain ⟨k, v⟩ := hd
      by_cases hk : k = p
      · rw [if_pos (h (k, v) (by simp) hk)]
        simp [alookup, hk]
      · by_cases hpred : pred (k, v) = true
        · rw [if_pos hpred]
          simp only [alookup]
          rw [if_neg hk]
          rw [ih (fun pv hm => h pv (by simp [hm]))]
          simp [alookup, hk]
        · rw [if_neg hpred]
          rw [ih (fun pv hm => h pv (by simp [hm]))]
          simp [alookup, hk]

/-- The per-port head extraction used by `getAvailableInputs`. -/
def headEntries (l : NodeValuesQueues) : InputValues :=
  l.filterMap (fun pv => (pv.2.head?).map (fun v => (pv.1, v)))

theorem headEntries_cons_none (k : PortName) (vs : List NodeValue)
    (tl : NodeValuesQueues) (h : vs.head? = none) :
    headEntries ((k, vs) :: tl) = headEntries tl := by
  simp [headEntries, List.filterMap_cons, h]

theorem headEntries_cons_some (k : PortName) (vs : List NodeValue)
    (tl : NodeValuesQueues) (v : NodeValue) (h : vs.head? = some v) :
    headEntries ((k, vs) :: tl) = (k, v) :: headEntries tl := by
  simp [headEntries, List.filterMap_cons, h]

theorem alookup_headEntries_of_none (l : NodeValuesQueues) (p : PortName)
    (h : alookup l p = none) : alookup (headEntries l) p = none := by
  induction l with
  | nil => rfl
  | cons hd tl ih =>
      obtain ⟨k, vs⟩ := hd
      have hk : k ≠ p := by
        intro hk
        simp [alookup, hk] at h
      have htl : alookup tl p = none := by
        simpa [alookup, hk] using h
      cases hv : vs.head? with
      | none =>
          rw [headEntries_cons_none _ _ _ hv]
          exact ih htl
      | some v =>
          rw [headEntries_cons_some _ _ _ _ hv]
          simp only [alookup]
          rw [if_neg hk]
          exact ih htl

theorem alookup_headEntries (l : NodeValuesQueues) (p : PortName)
    (hnd : (l.map (·.1)).Nodup) :
    alookup (headEntries l) p = ((alookup l p).getD []).head? := by
  induction l with
  | nil => rfl
  | cons hd tl ih =>
      obtain ⟨k, vs⟩ := hd
      have hnd' : (tl.map (·.1)).Nodup := (List.nodup_cons.mp hnd).2
      by_cases hk : k = p
      · subst hk
        have hkn : alookup tl k = none := by
          have hnotin : k ∉ tl.map (·.1) := (List.nodup_cons.mp hnd).1
          clear hnd hnd' ih
          induction tl with
          | nil => rfl
          | cons hd2 tl2 ih2 =>
              obtain ⟨k2, vs2⟩ := hd2
              simp only [List.map_cons, List.mem_cons] at hnotin
              push_neg at hnotin
              simp only [alookup]
              rw [if_neg (fun h => hnotin.1 h.symm)]
              exact ih2 hnotin.2
        cases hv : vs.head? with
        | none =>
            rw [headEntries_cons_none _ _ _ hv,
              alookup_headEntries_of_none tl k hkn]
            simp [alookup, hv]
        | some v =>
            rw [headEntries_cons_some _ _ _ _ hv]
            simp [alookup, hv]
      · cases hv : vs.head? with
        | none =>
            rw [headEntries_cons_none _ _ _ hv, ih hnd']
            simp [alookup, hk]
        | some v =>
            rw [headEntries_cons_some _ _ _ _ hv]
            simp only [alookup]
            rw [if_neg hk, ih hnd']
            simp [alookup, hk]

/-- Well-formedness of one node's port map: no duplicate port keys.
Always true of the JS objects the model embeds. -/
def portKeysNodup (m : NodeValuesQueuesMap) (n : NodeIdentifier) : Prop :=
  (((alookup m n).getD []).map (·.1)).Nodup

instance (m : NodeValuesQueuesMap) (n : NodeIdentifier) :
    Decidable (portKeysNodup m n) := by
  unfold portKeysNodup
  infer_instance

/-- Per-port reading of `getAvailableInputs`: it is exactly
`availableInput` — the queue head when the FIFO is non-empty, the
constants entry otherwise. -/
theorem getAvailableInputs_lookup (s : QueuedNodeValuesState)
    (n : NodeIdentifier) (p : PortName)
    (hq : portKeysNodup s.state n) (hc : portKeysNodup s.constants n) :
    alookup (getAvailableInputs s n) p = availableInput s n p := by
  have hqv : alookup (headEntries ((alookup s.state n).getD [])) p =
      (qGet s.state n p).head? :=
    alookup_headEntries _ p hq
  have hcv : alookup (headEntries ((alookup s.constants n).getD [])) p =
      (qGet s.constants n p).head? :=
    alookup_headEntries _ p hc
  simp only [getAvailableInputs, mergeValues, availableInput]
  rw [← headEntries, ← headEntries, alookup_append]
  cases hhead : (qGet s.state n p).head? with
  | some v =>
      have hfil : alookup
          ((headEntries ((alookup s.constants n).getD [])).filter
            (fun pv => (alookup (headEntries ((alookup s.state n).getD [])) pv.1).isNone)) p =
          none := by
        apply alookup_filter_none
        intro pv _ hpv
        rw [hpv, hqv, hhead]
        rfl
      rw [hfil, hqv, hhead]
  | none =>
      have hfil : alookup
          ((headEntries ((alookup s.constants n).getD [])).filter
            (fun pv => (alookup (headEntries ((alookup s.state n).getD [])) pv.1).isNone)) p =
          alookup (headEntries ((alookup s.constants n).getD [])) p := by
        apply alookup_filter_all
        intro pv _ hpv
        rw [hpv, hqv, hhead]
        rfl
      rw [hfil, hcv, hqv, hhead]
      cases (qGet s.constants n p).head? <;> rfl

/-- A node of the graph (`NodeDescriptor`): identifier, type
identifier resolved against the handler registry, and configuration
(literal values available in addition to wired inputs). -/
structure NodeDescriptor where
  id : NodeIdentifier
  type : String
  configuration : InputValues
deriving DecidableEq, Repr

/-- A graph document (`GraphDescriptor`): ordered nodes and edges. -/
structure GraphDescriptor where
  nodes : List NodeDescriptor
  edges : List Edge
deriving DecidableEq, Repr

/-- A node handler's `invoke` function (`NodeHandlerFunction`): takes
the gathered inputs, returns outputs or raises an error message. -/
abbrev NodeHandlerFunction := InputValues → Except String OutputValues

/-- Modelled from the spec: the static context of a traversal — the
graph, the handler registry resolving a type identifier to an invoke
function, and the describe-derived required ports per node type.  The
traversal machine itself is absent from the sampled sources. -/
structure TraversalContext where
  graph : GraphDescriptor
  handlers : String → NodeHandlerFunction
  required : String → List PortName

/-- Edges leaving node `n`, in declaration order. -/
def edgesFrom (g : GraphDescriptor) (n : NodeIdentifier) : List Edge :=
  g.edges.filter (fun e => e.fromNode == n)

/-- The descriptor of node `n` (defaulting for a dangling reference,
which graph validation would have rejected before any node runs). -/
def descriptorOf (g : GraphDescriptor) (n : NodeIdentifier) : NodeDescriptor :=
  (g.nodes.find? (fun d => d.id == n)).getD ⟨n, "", []⟩

/-- The `ErrorObject`/`ErrorResponse` payload of types.ts: the error message, the
node that threw, and the inputs passed to it. -/
structure ErrorResponse where
  error : String
  descriptor : NodeDescriptor
  inputs : InputValues
deriving DecidableEq, Repr

/-- Probe lifecycle events (`ProbeMessage` of types.ts, restricted to
the per-step kinds the claims mention). -/
inductive TraceEvent where
  | nodestart (node : NodeIdentifier) (inputs : InputValues)
  | nodeend (node : NodeIdentifier) (inputs : InputValues) (outputs : OutputValues)
  | skip (node : NodeIdentifier) (inputs : InputValues) (missingInputs : List PortName)
  | error (err : ErrorResponse)
deriving DecidableEq, Repr

/-- Modelled from the spec: the resumable machine state — wiring state,
pending opportunity list, and the path of positional indices (§4.4
"serializable snapshot of Wiring State + pending opportunity list +
path"). -/
structure MachineState where
  wiring : QueuedNodeValuesState
  opportunities : List Edge
  path : List Nat
deriving DecidableEq, Repr

/-- The inputs gathered for node `n`: wired values merged over the
node's configuration literals (wired values take precedence). -/
def inputsFor (ctx : TraversalContext) (w : QueuedNodeValuesState)
    (n : NodeIdentifier) : InputValues :=
  mergeValues (descriptorOf ctx.graph n).configuration (getAvailableInputs w n)

/-- The required ports of node `n` absent from the gathered inputs. -/
def missingFor (ctx : TraversalContext) (w : QueuedNodeValuesState)
    (n : NodeIdentifier) : List PortName :=
  (ctx.required (descriptorOf ctx.graph n).type).filter
    (fun p => (alookup (inputsFor ctx w n) p).isNone)

/-- The result of one traversal step. -/
inductive StepOutcome where
  | done
  | next (ms : MachineState) (events : List TraceEvent) (skip : Bool)
      (newOutputs : OutputValues)
  | failed (err : ErrorResponse) (events : List TraceEvent)
deriving Repr

/-- Modelled from the spec: one transition of the traversal engine
(§4.3): pop the next opportunity; if required inputs are missing, skip
(one skip event, no handler call, no propagation); otherwise consume
inputs, invoke the handler, fail the run on a handler error, else wire
outputs and append the newly satisfiable outgoing edges as new
opportunities. -/
def step (ctx : TraversalContext) (ms : MachineState) : StepOutcome :=
  match ms.opportunities with
  | [] => .done
  | e :: rest =>
      let n := e.toNode
      let desc := descriptorOf ctx.graph n
      let inputs := inputsFor ctx ms.wiring n
      let missing := missingFor ctx ms.wiring n
      if missing = [] then
        let wiring1 := useInputs ms.wiring n inputs
        match ctx.handlers desc.type inputs with
        | .error msg =>
            .failed ⟨msg, desc, inputs⟩
              [.nodestart n inputs, .error ⟨msg, desc, inputs⟩]
        | .ok outs =>
            let outgoing := edgesFrom ctx.graph n
            let wiring2 := wireOutputs wiring1 outgoing outs
            let newOpps := outgoing.filter (fun e2 => (alookup outs e2.out).isSome)
            .next ⟨wiring2, rest ++ newOpps, ms.path⟩
              [.nodestart n inputs, .nodeend n inputs outs] false
              (if desc.type == "output" then outs else [])
      else
        .next ⟨ms.wiring, rest, ms.path⟩ [.skip n inputs missing] true []

/-- The observable result of a run. -/
inductive RunOutcome where
  | completed (outputs : OutputValues)
  | failed (err : ErrorResponse)
  | outOfFuel (ms : MachineState)
deriving DecidableEq, Repr

/-- Modelled from the spec: the firing loop, driven by explicit fuel
(the TS loop runs until no opportunities remain; fuel makes the model
total).  Accumulates graph-level outputs and returns the emitted probe
event trace. -/
def runFuel (ctx : TraversalContext) :
    Nat → MachineState → OutputValues → RunOutcome × List TraceEvent
  | 0, ms, _ => (.outOfFuel ms, [])
  | fuel + 1, ms, outs =>
      match step ctx ms with
      | .done => (.completed outs, [])
      | .failed err evs => (.failed err, evs)
      | .next ms2 evs _ newOuts =>
          let r := runFuel ctx fuel ms2 (outs ++ newOuts)
          (r.1, evs ++ r.2)

/-- Whether a trace event is an `ErrorResponse` emission. -/
def isErrorEvent : TraceEvent → Bool
  | .error _ => true
  | _ => false

/-- Whether a trace event is a handler invocation start. -/
def isNodestartEvent : TraceEvent → Bool
  | .nodestart _ _ => true
  | _ => false

/-- Number of `ErrorResponse` emissions in a trace. -/
def errCount (tr : List TraceEvent) : Nat := tr.countP isErrorEvent

theorem step_done (ctx : TraversalContext) (w : QueuedNodeValuesState)
    (path : List Nat) : step ctx ⟨w, [], path⟩ = .done := rfl

theorem step_skip (ctx : TraversalContext) (w : QueuedNodeValuesState)
    (e : Edge) (rest : List Edge) (path : List Nat)
    (hmiss : missingFor ctx w e.toNode ≠ []) :
    step ctx ⟨w, e :: rest, path⟩ =
      .next ⟨w, rest, path⟩
        [.skip e.toNode (inputsFor ctx w e.toNode) (missingFor ctx w e.toNode)]
        true [] := by
  simp only [step]
  rw [if_neg hmiss]

theorem step_fail (ctx : TraversalContext) (w : QueuedNodeValuesState)
    (e : Edge) (rest : List Edge) (path : List Nat) (msg : String)
    (hmiss : missingFor ctx w e.toNode = [])
    (hh : ctx.handlers (descriptorOf ctx.graph e.toNode).type
      (inputsFor ctx w e.toNode) = .error msg) :
    step ctx ⟨w, e :: rest, path⟩ =
      .failed ⟨msg, descriptorOf ctx.graph e.toNode, inputsFor ctx w e.toNode⟩
        [.nodestart e.toNode (inputsFor ctx w e.toNode),
         .error ⟨msg, descriptorOf ctx.graph e.toNode, inputsFor ctx w e.toNode⟩] := by
  simp only [step]
  rw [if_pos hmiss, hh]

theorem step_ok (ctx : TraversalContext) (w : QueuedNodeValuesState)
    (e : Edge) (rest : List Edge) (path : List Nat) (outs : OutputValues)
    (hmiss : missingFor ctx w e.toNode = [])
    (hh : ctx.handlers (descriptorOf ctx.graph e.toNode).type
      (inputsFor ctx w e.toNode) = .ok outs) :
    step ctx ⟨w, e :: rest, path⟩ =
      .next
        ⟨wireOutputs (useInputs w e.toNode (inputsFor ctx w e.toNode))
            (edgesFrom ctx.graph e.toNode) outs,
          rest ++ (edgesFrom ctx.graph e.toNode).filter
            (fun e2 => (alookup outs e2.out).isSome),
          path⟩
        [.nodestart e.toNode (inputsFor ctx w e.toNode),
         .nodeend e.toNode (inputsFor ctx w e.toNode) outs]
        false
        (if (descriptorOf ctx.graph e.toNode).type == "output" then outs else []) := by
  simp only [step]
  rw [if_pos hmiss, hh]

theorem step_next_errCount (ctx : TraversalContext) (ms ms' : MachineState)
    (evs : List TraceEvent) (sk : Bool) (no : OutputValues)
    (h : step ctx ms = .next ms' evs sk no) : errCount evs = 0 := by
  obtain ⟨w, opps, path⟩ := ms
  cases opps with
  | nil => rw [step_done] at h; exact absurd h (by simp)
  | cons e rest =>
      by_cases hmiss : missingFor ctx w e.toNode = []
      · cases hh : ctx.handlers (descriptorOf ctx.graph e.toNode).type
            (inputsFor ctx w e.toNode) with
        | error msg =>
            rw [step_fail _ _ _ _ _ _ hmiss hh] at h
            exact absurd h (by simp)
        | ok outs =>
            rw [step_ok _ _ _ _ _ _ hmiss hh] at h
            cases h
            rfl
      · rw [step_skip _ _ _ _ _ hmiss] at h
        cases h
        rfl

theorem step_failed_inv (ctx : TraversalContext) (ms : MachineState)
    (err : ErrorResponse) (evs : List TraceEvent)
    (h : step ctx ms = .failed err evs) :
    evs = [.nodestart err.descriptor.id err.inputs, .error err] ∨
      ∃ n, evs = [.nodestart n err.inputs, .error err] := by
  obtain ⟨w, opps, path⟩ := ms
  cases opps with
  | nil => rw [step_done] at h; exact absurd h (by simp)
  | cons e rest =>
      by_cases hmiss : missingFor ctx w e.toNode = []
      · cases hh : ctx.handlers (descriptorOf ctx.graph e.toNode).type
            (inputsFor ctx w e.toNode) with
        | error msg =>
            rw [step_fail _ _ _ _ _ _ hmiss hh] at h
            cases h
            right
            exact ⟨e.toNode, rfl⟩
        | ok outs =>
            rw [step_ok _ _ _ _ _ _ hmiss hh] at h
            exact absurd h (by simp)
      · rw [step_skip _ _ _ _ _ hmiss] at h
        exact absurd h (by simp)

theorem errCount_append (a b : List TraceEvent) :
    errCount (a ++ b) = errCount a + errCount b := by
  simp [errCount, List.countP_append]

/-- Trace invariant of the firing loop: a run that does not fail emits
no error event; a run that fails with `err` emits exactly one error
event, as the final event of the trace (so no node starts after it),
preceded by the failing node's start. -/
theorem runFuel_trace_inv (ctx : TraversalContext) (fuel : Nat)
    (ms : MachineState) (outs : OutputValues) :
    (∀ err, (runFuel ctx fuel ms outs).1 = .failed err →
      ∃ pre n, (runFuel ctx fuel ms outs).2 =
          pre ++ [.nodestart n err.inputs, .error err] ∧ errCount pre = 0) ∧
    ((∀ err, (runFuel ctx fuel ms outs).1 ≠ .failed err) →
      errCount (runFuel ctx fuel ms outs).2 = 0) := by
  induction fuel generalizing ms outs with
  | zero =>
      constructor
      · intro err h
        exact absurd h (by simp [runFuel])
      · intro _
        simp [runFuel, errCount]
  | succ fuel ih =>
      cases hstep : step ctx ms with
      | done =>
          constructor
          · intro err h
            simp only [runFuel, hstep] at h
            exact absurd h (by simp)
          · intro _
            simp [runFuel, hstep, errCount]
      | failed err0 evs =>
          constructor
          · intro err h
            simp only [runFuel, hstep] at h ⊢
            cases h
            rcases step_failed_inv ctx ms err0 evs hstep with h2 | ⟨n, h2⟩
            · exact ⟨[], err0.descriptor.id, by simpa using h2, rfl⟩
            · exact ⟨[], n, by simpa using h2, rfl⟩
          · intro hnone
            exact absurd (by simp [runFuel, hstep] : (runFuel ctx (fuel + 1) ms outs).1 = .failed err0)
              (hnone err0)
      | next ms2 evs sk newOuts =>
          have hevs : errCount evs = 0 := step_next_errCount ctx ms ms2 evs sk newOuts hstep
          have hrun : runFuel ctx (fuel + 1) ms outs =
              ((runFuel ctx fuel ms2 (outs ++ newOuts)).1,
                evs ++ (runFuel ctx fuel ms2 (outs ++ newOuts)).2) := by
            simp [runFuel, hstep]
          constructor
          · intro err h
            rw [hrun] at h
            rcases (ih ms2 (outs ++ newOuts)).1 err h with ⟨pre, n, htr, hpre⟩
            refine ⟨evs ++ pre, n, ?_, ?_⟩
            · rw [hrun]
              simp [htr]
            · rw [errCount_append, hevs, hpre]
          · intro hnone
            rw [hrun]
            simp only
            rw [errCount_append, hevs]
            have : errCount (runFuel ctx fuel ms2 (outs ++ newOuts)).2 = 0 := by
              apply (ih ms2 (outs ++ newOuts)).2
              intro err h
              exact hnone err (by rw [hrun]; exact h)
            rw [this]

/-- Any run emits at most one `ErrorResponse`. -/
theorem runFuel_errCount_le_one (ctx : TraversalContext) (fuel : Nat)
    (ms : MachineState) (outs : OutputValues) :
    errCount (runFuel ctx fuel ms outs).2 ≤ 1 := by
  by_cases h : ∀ err, (runFuel ctx fuel ms outs).1 ≠ .failed err
  · rw [(runFuel_trace_inv ctx fuel ms outs).2 h]
    exact Nat.zero_le 1
  · push_neg at h
    obtain ⟨err, herr⟩ := h
    rcases (runFuel_trace_inv ctx fuel ms outs).1 err herr with ⟨pre, n, htr, hpre⟩
    rw [htr, errCount_append, hpre]
    simp [errCount, List.countP_cons, isErrorEvent]

/-- A handler error halts the run at once: whatever fuel and pending
opportunities remain, the result is `Failed` carrying the handler's
message, node descriptor and inputs, and the trace ends at the error
event. -/
theorem runFuel_fail_immediate (ctx : TraversalContext)
    (w : QueuedNodeValuesState) (e : Edge) (rest : List Edge)
    (path : List Nat) (msg : String) (fuel : Nat) (outs : OutputValues)
    (hmiss : missingFor ctx w e.toNode = [])
    (hh : ctx.handlers (descriptorOf ctx.graph e.toNode).type
      (inputsFor ctx w e.toNode) = .error msg) :
    runFuel ctx (fuel + 1) ⟨w, e :: rest, path⟩ outs =
      (.failed ⟨msg, descriptorOf ctx.graph e.toNode, inputsFor ctx w e.toNode⟩,
        [.nodestart e.toNode (inputsFor ctx w e.toNode),
         .error ⟨msg, descriptorOf ctx.graph e.toNode, inputsFor ctx w e.toNode⟩]) := by
  simp [runFuel, step_fail ctx w e rest path msg hmiss hh]

/-- The opaque, versioned checkpoint token: a serialisable tree of
naturals and strings (§4.4/§6 "opaque, versioned serialization"). -/
inductive Tok where
  | nat (n : Nat)
  | str (s : String)
  | seq (items : List Tok)
deriving Repr

/-- Decode every item of a list, failing when any item fails. -/
def mapO {α β : Type} (f : α → Option β) : List α → Option (List β)
  | [] => some []
  | a :: t =>
      match f a with
      | none => none
      | some b => (mapO f t).map (fun bs => b :: bs)

theorem mapO_map_roundtrip {α β : Type} (enc : α → β) (dec : β → Option α)
    (h : ∀ x, dec (enc x) = some x) (l : List α) :
    mapO dec (l.map enc) = some l := by
  induction l with
  | nil => rfl
  | cons a t ih => simp [mapO, h, ih]

def encQueue (vs : List Nat) : Tok := .seq (vs.map .nat)

def decNat : Tok → Option Nat
  | .nat n => some n
  | _ => none

def decQueue : Tok → Option (List Nat)
  | .seq items => mapO decNat items
  | _ => none

def encPorts (l : NodeValuesQueues) : Tok :=
  .seq (l.map (fun pv => .seq [.str pv.1, encQueue pv.2]))

def decPortEntry : Tok → Option (PortName × List NodeValue)
  | .seq [.str p, q] => (decQueue q).map (fun vs => (p, vs))
  | _ => none

def decPorts : Tok → Option NodeValuesQueues
  | .seq items => mapO decPortEntry items
  | _ => none

def encMap (m : NodeValuesQueuesMap) : Tok :=
  .seq (m.map (fun nv => .seq [.str nv.1, encPorts nv.2]))

def decMapEntry : Tok → Option (NodeIdentifier × NodeValuesQueues)
  | .seq [.str n, ps] => (decPorts ps).map (fun l => (n, l))
  | _ => none

def decMap : Tok → Option NodeValuesQueuesMap
  | .seq items => mapO decMapEntry items
  | _ => none

def encEdge (e : Edge) : Tok :=
  .seq [.str e.fromNode, .str e.out, .str e.toNode, .str e.inPort,
    .nat (if e.constant then 1 else 0)]

def decEdge : Tok → Option Edge
  | .seq [.str f, .str o, .str t, .str i, .nat c] => some ⟨f, o, t, i, c == 1⟩
  | _ => none

/-- Modelled from the spec: `save()` — "serializes Wiring State +
newOpportunities + path into an opaque, versioned token" (§4.4; the
runner implementation is absent from the sampled sources). -/
def save (ms : MachineState) : Tok :=
  .seq [.nat 1, encMap ms.wiring.state, encMap ms.wiring.constants,
    .seq (ms.opportunities.map encEdge), encQueue ms.path]

/-- Modelled from the spec: `restore(token)` — "reconstructs an
equivalent engine instance"; rejects a token of unknown version or
shape (§4.4; implementation absent from the sampled sources). -/
def restore : Tok → Option MachineState
  | .seq [.nat 1, st, cs, .seq opps, pth] => do
      let st2 ← decMap st
      let cs2 ← decMap cs
      let opps2 ← mapO decEdge opps
      let pth2 ← decQueue pth
      pure ⟨⟨st2, cs2⟩, opps2, pth2⟩
  | _ => none

theorem decQueue_encQueue (vs : List Nat) : decQueue (encQueue vs) = some vs := by
  simp only [encQueue, decQueue]
  exact mapO_map_roundtrip Tok.nat decNat (fun x => rfl) vs

theorem decPortEntry_enc (pv : PortName × List NodeValue) :
    decPortEntry (.seq [.str pv.1, encQueue pv.2]) = some pv := by
  simp [decPortEntry, decQueue_encQueue]

theorem decPorts_encPorts (l : NodeValuesQueues) :
    decPorts (encPorts l) = some l := by
  simp only [encPorts, decPorts]
  exact mapO_map_roundtrip _ _ decPortEntry_enc l

theorem decMapEntry_enc (nv : NodeIdentifier × NodeValuesQueues) :
    decMapEntry (.seq [.str nv.1, encPorts nv.2]) = some nv := by
  simp [decMapEntry, decPorts_encPorts]

theorem decMap_encMap (m : NodeValuesQueuesMap) : decMap (encMap m) = some m := by
  simp only [encMap, decMap]
  exact mapO_map_roundtrip _ _ decMapEntry_enc m

theorem decEdge_encEdge (e : Edge) : decEdge (encEdge e) = some e := by
  obtain ⟨f, o, t, i, c⟩ := e
  cases c <;> rfl

/-- The checkpoint round trip: restoring a saved token reconstructs
exactly the saved machine state. -/
theorem restore_save (ms : MachineState) : restore (save ms) = some ms := by
  obtain ⟨⟨st, cs⟩, opps, pth⟩ := ms
  simp [save, restore, decMap_encMap, decQueue_encQueue,
    mapO_map_roundtrip _ _ decEdge_encEdge]

/-- Modelled from the spec: the firing loop with an attached probe
consumer (§4.5).  The consumer is an arbitrary stateful observer of
the event stream (`report`); the engine forwards every emitted event to
it and never reads its state. -/
def runProbe {σ : Type} (ctx : TraversalContext) (report : σ → TraceEvent → σ) :
    Nat → MachineState → OutputValues → σ → RunOutcome × List TraceEvent × σ
  | 0, ms, _, ps => (.outOfFuel ms, [], ps)
  | fuel + 1, ms, outs, ps =>
      match step ctx ms with
      | .done => (.completed outs, [], ps)
      | .failed err evs => (.failed err, evs, evs.foldl report ps)
      | .next ms2 evs _ newOuts =>
          let r := runProbe ctx report fuel ms2 (outs ++ newOuts) (evs.foldl report ps)
          (r.1, evs ++ r.2.1, r.2.2)

/-- Probe noninterference: the engine's outcome and emitted event
sequence are identical with any probe consumer attached, in any
starting consumer state, to the run with no probe at all. -/
theorem runProbe_runFuel {σ : Type} (ctx : TraversalContext)
    (report : σ → TraceEvent → σ) (fuel : Nat) (ms : MachineState)
    (outs : OutputValues) (ps : σ) :
    (runProbe ctx report fuel ms outs ps).1 = (runFuel ctx fuel ms outs).1 ∧
    (runProbe ctx report fuel ms outs ps).2.1 = (runFuel ctx fuel ms outs).2 := by
  induction fuel generalizing ms outs ps with
  | zero => exact ⟨rfl, rfl⟩
  | succ fuel ih =>
      cases hstep : step ctx ms with
      | done => simp [runProbe, runFuel, hstep]
      | failed err evs => simp [runProbe, runFuel, hstep]
      | next ms2 evs sk newOuts =>
          have h := ih ms2 (outs ++ newOuts) (evs.foldl report ps)
          simp [runProbe, runFuel, hstep, h.1, h.2]

/-- The ambient URL API of the host environment: an optional
`URL.canParse` static member (older browsers lack it), and the `new
URL(...)` constructor, which either yields a URL (its href here) or
throws — modelled as `Option`. -/
structure URLApi where
  canParseMember : Option (String → Bool)
  construct : String → Option String

/-- Translated from `packages/visual-editor/src/commands/commands.ts`
lines 145–157: `canParse(urlLike)` returns `URL.canParse(urlLike)` when
the member exists, and otherwise tries `new URL(urlLike)`, returning
`true` on success and `false` when the constructor throws (the failure
is caught). -/
def canParse (api : URLApi) (urlLike : String) : Bool :=
  match api.canParseMember with
  | some f => f urlLike
  | none =>
      match api.construct urlLike with
      | some _ => true
      | none => false

/-- A module's source record (`metadata.source` in the module editor). -/
structure ModuleSource where
  code : String
  language : String
deriving DecidableEq, Repr

/-- Module metadata as manipulated by the editor's save path. -/
structure ModuleMetadata where
  source : Option ModuleSource
  description : String
  runnable : Bool
deriving DecidableEq, Repr

/-- An inspectable module: its (compiled) code and metadata. -/
structure InspectableModule where
  code : String
  metadata : ModuleMetadata
deriving DecidableEq, Repr

/-- Toast severities (`ToastType` of the shared UI events). -/
inductive ToastType where
  | information
  | warning
  | error
deriving DecidableEq, Repr

/-- The events `#processEditorCodeWithEnvironment` may dispatch. -/
inductive EditorEvent where
  | toast (message : String) (ty : ToastType)
  | moduleEdit (moduleId : String) (code : String) (metadata : ModuleMetadata)
deriving DecidableEq, Repr

/-- The slice of `ModuleEditor` state read and written by
`#processEditorCodeWithEnvironment`: the code editor's value (none when
the ref is unset), the lint error count, the ribbon menu's
`moduleIsRunnable()` (none when the ref is unset), the selected module
id, the modules map, and the unsaved-changes flag. -/
structure ModuleEditorState where
  codeEditorValue : Option String
  errorCount : Nat
  ribbonMenuRunnable : Option Bool
  moduleId : Option String
  modules : List (String × InspectableModule)
  hasUnsavedChanges : Bool
deriving DecidableEq, Repr

/-- Translated from the module editor's
`#processEditorCodeWithEnvironment(manual, force)`: guards on the
editor ref and value, the error-count early return (with a warning
toast only on a manual save), compilation, ribbon/module guards,
metadata update, clearing the unsaved flag, and the `ModuleEditEvent`
dispatch followed by an information toast on manual saves.  The
compiler and the `@fileOverview` description parser are environment
functions passed in. -/
def processEditorCodeWithEnvironment (compile parseDescr : String → String)
    (st : ModuleEditorState) (manual force : Bool) :
    ModuleEditorState × List EditorEvent :=
  match st.codeEditorValue with
  | none => (st, [])
  | some editorValue =>
      if editorValue = "" then (st, [])
      else if 0 < st.errorCount ∧ force = false then
        (st, if manual then [.toast "Unable to save - code has errors" .warning] else [])
      else
        let source := editorValue
        let compiledCode := compile editorValue
        match st.ribbonMenuRunnable, st.moduleId with
        | some runnable, some moduleId =>
            (match alookup st.modules moduleId with
             | none => (st, [])
             | some module0 =>
                 let metadata := module0.metadata
                 let language := (metadata.source.map (fun s => s.language)).getD "javascript"
                 let description := parseDescr source
                 let metadata1 :=
                   if language = "typescript" then
                     { metadata with source := some ⟨source, "typescript"⟩ }
                   else metadata
                 let metadata2 :=
                   { metadata1 with description := description, runnable := runnable }
                 ({ st with hasUnsavedChanges := false },
                   [.moduleEdit moduleId compiledCode metadata2] ++
                     (if manual then [.toast "Code updated" .information] else [])))
        | _, _ => (st, [])

theorem deliveries_nil (es : List Edge) (o : OutputValues)
    (n : NodeIdentifier) (p : PortName) (c : Bool)
    (H : ∀ e ∈ es, e.toNode = n → e.inPort = p → alookup o e.out = none) :
    deliveries es o n p c = [] := by
  induction es with
  | nil => rfl
  | cons e rest ih =>
      have ih2 := ih (fun e2 h2 => H e2 (List.mem_cons_of_mem e h2))
      by_cases htgt : e.toNode = n ∧ e.inPort = p
      · rw [deliveries_cons_miss _ _ _ _ _ _
          (Or.inl (H e (List.mem_cons_self e rest) htgt.1 htgt.2))]
        exact ih2
      · rcases target_split htgt with h | h
        · rw [deliveries_cons_miss _ _ _ _ _ _ (Or.inr (Or.inr (Or.inl h)))]
          exact ih2
        · rw [deliveries_cons_miss _ _ _ _ _ _ (Or.inr (Or.inr (Or.inr h)))]
          exact ih2

/-- Edges without a matching entry in the outputs are irrelevant to
`wireOutputs`: filtering them away changes nothing. -/
theorem wireOutputs_filter_matching (es : List Edge) (o : OutputValues)
    (s : QueuedNodeValuesState) :
    wireOutputs s es o =
      wireOutputs s (es.filter (fun e => (alookup o e.out).isSome)) o := by
  induction es generalizing s with
  | nil => rfl
  | cons e rest ih =>
      cases ho : alookup o e.out with
      | none =>
          rw [wireOutputs_cons_none _ _ _ _ ho, ih, List.filter_cons]
          simp [ho]
      | some v =>
          rw [wireOutputs_cons_some _ _ _ _ _ ho, ih, List.filter_cons]
          simp only [ho, Option.isSome_some, if_pos]
          rw [wireOutputs_cons_some _ _ _ _ _ ho]

/-- An atomic operation on the wiring state: an output delivery or an
input consumption. -/
inductive WiringOp where
  | wire (es : List Edge) (o : OutputValues)
  | use (n : NodeIdentifier) (inputs : InputValues)

/-- Apply one wiring operation. -/
def applyOp (s : QueuedNodeValuesState) : WiringOp → QueuedNodeValuesState
  | .wire es o => wireOutputs s es o
  | .use n inputs => useInputs s n inputs

/-- An operation that does not re-deliver over a constant edge into
`(n, p)`: any `useInputs`, and any `wireOutputs` without a matching
constant edge targeting `(n, p)`. -/
def opPreservesConst (n : NodeIdentifier) (p : PortName) : WiringOp → Prop
  | .wire es o => deliveries es o n p true = []
  | .use _ _ => True

theorem foldl_applyOp_constants (ops : List WiringOp)
    (s : QueuedNodeValuesState) (n : NodeIdentifier) (p : PortName)
    (H : ∀ op ∈ ops, opPreservesConst n p op) :
    qGet (ops.foldl applyOp s).constants n p = qGet s.constants n p := by
  induction ops generalizing s with
  | nil => rfl
  | cons op rest ih =>
      rw [List.foldl_cons]
      rw [ih (applyOp s op) (fun op2 h2 => H op2 (List.mem_cons_of_mem op h2))]
      cases op with
      | wire es o =>
          exact wireOutputs_constants_frame es o s n p
            (H (.wire es o) (List.mem_cons_self _ _))
      | use n2 inputs =>
          show qGet (useInputs s n2 inputs).constants n p = qGet s.constants n p
          rw [useInputs_constants]

/-- C1: over a non-constant edge, each firing of the producer delivers
its value into the target port's FIFO exactly once — `wireOutputs`
appends exactly one copy, `useInputs` then dequeues exactly that one
occurrence (the head), and once consumed from an otherwise empty queue
it is never delivered again.  Holds for any producer edge list (any
number of consumers); the uniqueness hypothesis says `e` is the only
non-constant edge of the firing targeting its port. -/
theorem wire_deliver_exactly_once (s : QueuedNodeValuesState)
    (es : List Edge) (o : OutputValues) (e : Edge) (v : NodeValue)
    (hmatch : alookup o e.out = some v)
    (huniq : es.filter
      (fun e2 => e2.constant == false && e2.toNode == e.toNode &&
        e2.inPort == e.inPort) = [e]) :
    qGet (wireOutputs s es o).state e.toNode e.inPort =
      qGet s.state e.toNode e.inPort ++ [v] ∧
    (∀ inputs : InputValues, inputs.countP (fun pv => pv.1 == e.inPort) = 1 →
      qGet (useInputs (wireOutputs s es o) e.toNode inputs).state e.toNode e.inPort =
        (qGet s.state e.toNode e.inPort ++ [v]).tail) ∧
    (qGet s.state e.toNode e.inPort = [] →
      ∀ inputs : InputValues, inputs.countP (fun pv => pv.1 == e.inPort) = 1 →
      qGet (useInputs (wireOutputs s es o) e.toNode inputs).state e.toNode e.inPort = []) := by
  have hdel : deliveries es o e.toNode e.inPort false = [v] := by
    simp only [deliveries]
    rw [huniq]
    simp [List.filterMap_cons, hmatch]
  have h1 : qGet (wireOutputs s es o).state e.toNode e.inPort =
      qGet s.state e.toNode e.inPort ++ [v] := by
    rw [wireOutputs_state, hdel]
  have h2 : ∀ inputs : InputValues,
      inputs.countP (fun pv => pv.1 == e.inPort) = 1 →
      qGet (useInputs (wireOutputs s es o) e.toNode inputs).state e.toNode e.inPort =
        (qGet s.state e.toNode e.inPort ++ [v]).tail := by
    intro inputs hcount
    rw [useInputs_qGet, if_pos rfl, hcount, h1, ← List.drop_one]
  refine ⟨h1, h2, ?_⟩
  intro hempty inputs hcount
  rw [h2 inputs hcount, hempty]
  rfl

/-- C2: a constant edge's delivery overwrites the target port's
constants entry with the delivered value; that entry then survives any
sequence of `useInputs` calls and of `wireOutputs` calls without a
matching constant edge into the port (in particular, interleaved
non-constant deliveries and their dequeues); `useInputs` never touches
constants at all; and whenever the port's FIFO is empty,
`getAvailableInputs` still reports the constant value. -/
theorem constant_edge_persistence :
    (∀ (s : QueuedNodeValuesState) (es : List Edge) (o : OutputValues)
      (e : Edge) (v : NodeValue),
      alookup o e.out = some v →
      es.filter (fun e2 => e2.constant == true && e2.toNode == e.toNode &&
        e2.inPort == e.inPort) = [e] →
      qGet (wireOutputs s es o).constants e.toNode e.inPort = [v]) ∧
    (∀ (ops : List WiringOp) (s : QueuedNodeValuesState)
      (n : NodeIdentifier) (p : PortName),
      (∀ op ∈ ops, opPreservesConst n p op) →
      qGet (ops.foldl applyOp s).constants n p = qGet s.constants n p) ∧
    (∀ (s : QueuedNodeValuesState) (n : NodeIdentifier) (inputs : InputValues),
      (useInputs s n inputs).constants = s.constants) ∧
    (∀ (s : QueuedNodeValuesState) (n : NodeIdentifier) (p : PortName),
      portKeysNodup s.state n → portKeysNodup s.constants n →
      qGet s.state n p = [] →
      alookup (getAvailableInputs s n) p = (qGet s.constants n p).head?) := by
  refine ⟨?_, foldl_applyOp_constants, useInputs_constants, ?_⟩
  · intro s es o e v hmatch huniq
    have hdel : deliveries es o e.toNode e.inPort true = [v] := by
      simp only [deliveries]
      rw [huniq]
      simp [List.filterMap_cons, hmatch]
    rw [wireOutputs_constants, hdel]
    rfl
  · intro s n p hq hc hempty
    rw [getAvailableInputs_lookup s n p hq hc]
    simp [availableInput, hempty]

/-- C6: when a port has a queued value its FIFO head is what
`getAvailableInputs` reports (freshness over the stored constant); the
constant is reported only when the port's queue is empty. -/
theorem queued_value_takes_precedence (s : QueuedNodeValuesState)
    (n : NodeIdentifier) (p : PortName)
    (hq : portKeysNodup s.state n) (hc : portKeysNodup s.constants n) :
    (qGet s.state n p ≠ [] →
      alookup (getAvailableInputs s n) p = (qGet s.state n p).head?) ∧
    (qGet s.state n p = [] →
      alookup (getAvailableInputs s n) p = (qGet s.constants n p).head?) := by
  constructor
  · intro hne
    rw [getAvailableInputs_lookup s n p hq hc]
    cases hhead : (qGet s.state n p).head? with
    | none => exact absurd (List.head?_eq_none_iff.mp hhead) hne
    | some v => simp [availableInput, hhead]
  · intro hempty
    rw [getAvailableInputs_lookup s n p hq hc]
    simp [availableInput, hempty]

/-- C7: `wireOutputs` drops edges whose source port is absent from the
outputs (filtering them away yields the same state), and its only
effect is on the queue/constants entries of ports targeted by a
matching edge — every other node/port entry, including all source-node
state, is unchanged. -/
theorem wireOutputs_frame (s : QueuedNodeValuesState) (es : List Edge)
    (o : OutputValues) :
    wireOutputs s es o =
      wireOutputs s (es.filter (fun e => (alookup o e.out).isSome)) o ∧
    (∀ (n : NodeIdentifier) (p : PortName),
      (∀ e ∈ es, e.toNode = n → e.inPort = p → alookup o e.out = none) →
      qGet (wireOutputs s es o).state n p = qGet s.state n p ∧
      qGet (wireOutputs s es o).constants n p = qGet s.constants n p) := by
  refine ⟨wireOutputs_filter_matching es o s, ?_⟩
  intro n p H
  exact ⟨wireOutputs_state_frame es o s n p (deliveries_nil es o n p false H),
    wireOutputs_constants_frame es o s n p (deliveries_nil es o n p true H)⟩

/-- C3: checkpointing round-trips exactly — `restore` applied to a
saved token reconstructs the saved machine state, resuming from the
restored state yields the very same run (same outcome, outputs and
trace) for any fuel and context, and saving again produces a token
equal to the one saved. -/
theorem checkpoint_roundtrip (ms : MachineState) :
    restore (save ms) = some ms ∧
    (∀ ms2, restore (save ms) = some ms2 →
      (∀ (ctx : TraversalContext) (fuel : Nat) (outs : OutputValues),
        runFuel ctx fuel ms2 outs = runFuel ctx fuel ms outs) ∧
      save ms2 = save ms) := by
  refine ⟨restore_save ms, ?_⟩
  intro ms2 h
  rw [restore_save ms] at h
  cases h
  exact ⟨fun _ _ _ => rfl, rfl⟩

/-- C4: a handler error fails the run at once — at most one
`ErrorResponse` is ever emitted per run; a failed run's trace ends at
the error event (carrying the offending descriptor and inputs), so no
node starts after it; and whenever the selected node's handler raises
`msg`, the run returns `Failed` with that exact error immediately,
whatever fuel and opportunities remain. -/
theorem handler_error_halts :
    (∀ (ctx : TraversalContext) (fuel : Nat) (ms : MachineState)
      (outs : OutputValues), errCount (runFuel ctx fuel ms outs).2 ≤ 1) ∧
    (∀ (ctx : TraversalContext) (fuel : Nat) (ms : MachineState)
      (outs : OutputValues) (err : ErrorResponse),
      (runFuel ctx fuel ms outs).1 = .failed err →
      ∃ pre n, (runFuel ctx fuel ms outs).2 =
          pre ++ [.nodestart n err.inputs, .error err] ∧ errCount pre = 0) ∧
    (∀ (ctx : TraversalContext) (w : QueuedNodeValuesState) (e : Edge)
      (rest : List Edge) (path : List Nat) (msg : String) (fuel : Nat)
      (outs : OutputValues),
      missingFor ctx w e.toNode = [] →
      ctx.handlers (descriptorOf ctx.graph e.toNode).type
        (inputsFor ctx w e.toNode) = .error msg →
      runFuel ctx (fuel + 1) ⟨w, e :: rest, path⟩ outs =
        (.failed ⟨msg, descriptorOf ctx.graph e.toNode, inputsFor ctx w e.toNode⟩,
          [.nodestart e.toNode (inputsFor ctx w e.toNode),
           .error ⟨msg, descriptorOf ctx.graph e.toNode,
             inputsFor ctx w e.toNode⟩])) := by
  refine ⟨runFuel_errCount_le_one, ?_, ?_⟩
  · intro ctx fuel ms outs err h
    exact (runFuel_trace_inv ctx fuel ms outs).1 err h
  · intro ctx w e rest path msg fuel outs hmiss hh
    exact runFuel_fail_immediate ctx w e rest path msg fuel outs hmiss hh

/-- C5: a step whose selected node misses a required input never
invokes any handler — the step's result is the same for every handler
registry — and it emits exactly one skip event (carrying the node, its
inputs and the missing port names), marks the step as skipped, leaves
the wiring state untouched and adds no new opportunities. -/
theorem missing_input_skips (g : GraphDescriptor)
    (H1 H2 : String → NodeHandlerFunction) (req : String → List PortName)
    (w : QueuedNodeValuesState) (e : Edge) (rest : List Edge)
    (path : List Nat)
    (hmiss : missingFor ⟨g, H1, req⟩ w e.toNode ≠ []) :
    step ⟨g, H1, req⟩ ⟨w, e :: rest, path⟩ =
      .next ⟨w, rest, path⟩
        [.skip e.toNode (inputsFor ⟨g, H1, req⟩ w e.toNode)
          (missingFor ⟨g, H1, req⟩ w e.toNode)] true [] ∧
    step ⟨g, H2, req⟩ ⟨w, e :: rest, path⟩ =
      step ⟨g, H1, req⟩ ⟨w, e :: rest, path⟩ := by
  have h1 := step_skip ⟨g, H1, req⟩ w e rest path hmiss
  have hmiss2 : missingFor ⟨g, H2, req⟩ w e.toNode ≠ [] := hmiss
  have h2 := step_skip ⟨g, H2, req⟩ w e rest path hmiss2
  exact ⟨h1, h2.trans h1.symm⟩

/-- C8: probe reporting never influences traversal — two runs with any
two probe consumers (of any state types, from any initial states,
including the degenerate absent consumer) produce the same outcome and
the same event sequence, equal to those of the probe-less run. -/
theorem probe_noninterference {σ1 σ2 : Type} (ctx : TraversalContext)
    (r1 : σ1 → TraceEvent → σ1) (r2 : σ2 → TraceEvent → σ2) (fuel : Nat)
    (ms : MachineState) (outs : OutputValues) (ps1 : σ1) (ps2 : σ2) :
    (runProbe ctx r1 fuel ms outs ps1).1 = (runProbe ctx r2 fuel ms outs ps2).1 ∧
    (runProbe ctx r1 fuel ms outs ps1).2.1 =
      (runProbe ctx r2 fuel ms outs ps2).2.1 ∧
    (runProbe ctx r1 fuel ms outs ps1).1 = (runFuel ctx fuel ms outs).1 ∧
    (runProbe ctx r1 fuel ms outs ps1).2.1 = (runFuel ctx fuel ms outs).2 := by
  have h1 := runProbe_runFuel ctx r1 fuel ms outs ps1
  have h2 := runProbe_runFuel ctx r2 fuel ms outs ps2
  exact ⟨h1.1.trans h2.1.symm, h1.2.trans h2.2.symm, h1.1, h1.2⟩

/-- C9: `canParse` is a total boolean function — the URL-constructor
failure is caught, never propagated — and, assuming the host's
`URL.canParse` member agrees with its constructor (the platform
contract the code relies on), it returns `true` exactly when the URL
constructor accepts the string. -/
theorem canParse_total_agrees (api : URLApi)
    (hagree : ∀ f, api.canParseMember = some f →
      ∀ t, f t = (api.construct t).isSome) :
    ∀ s, canParse api s = (api.construct s).isSome := by
  intro s
  cases hm : api.canParseMember with
  | some f =>
      simp only [canParse, hm]
      exact hagree f hm s
  | none =>
      simp only [canParse, hm]
      cases api.construct s <;> rfl

/-- C10: with outstanding lint errors and no force flag, the module
editor's save path is a no-op — the editor state (module code,
metadata, unsaved-changes flag) is returned unchanged, no
`ModuleEditEvent` is dispatched (every emitted event is a warning
toast), and nothing at all is emitted unless the save was manual. -/
theorem module_editor_error_noop (compile parseDescr : String → String)
    (st : ModuleEditorState) (manual : Bool) (herr : 0 < st.errorCount) :
    (processEditorCodeWithEnvironment compile parseDescr st manual false).1 = st ∧
    (∀ ev ∈ (processEditorCodeWithEnvironment compile parseDescr st manual false).2,
      ∃ msg, ev = .toast msg .warning) ∧
    (manual = false →
      (processEditorCodeWithEnvironment compile parseDescr st manual false).2 = []) := by
  have key : ∃ evs, processEditorCodeWithEnvironment compile parseDescr st manual false =
      (st, evs) ∧
      (evs = [] ∨ (manual = true ∧
        evs = [.toast "Unable to save - code has errors" .warning])) := by
    cases hval : st.codeEditorValue with
    | none =>
        exact ⟨[], by simp [processEditorCodeWithEnvironment, hval], Or.inl rfl⟩
    | some v0 =>
        by_cases hempty : v0 = ""
        · exact ⟨[], by simp [processEditorCodeWithEnvironment, hval, hempty],
            Or.inl rfl⟩
        · cases manual with
          | false =>
              exact ⟨[], by
                simp [processEditorCodeWithEnvironment, hval, hempty, herr],
                Or.inl rfl⟩
          | true =>
              exact ⟨[.toast "Unable to save - code has errors" .warning], by
                simp [processEditorCodeWithEnvironment, hval, hempty, herr],
                Or.inr ⟨rfl, rfl⟩⟩
  obtain ⟨evs, heq, hcases⟩ := key
  rw [heq]
  refine ⟨rfl, ?_, ?_⟩
  · intro ev hmem
    rcases hcases with h | ⟨_, h⟩
    · rw [h] at hmem
      exact absurd hmem (by simp)
    · rw [h] at hmem
      simp only [List.mem_singleton] at hmem
      exact ⟨"Unable to save - code has errors", hmem⟩
  · intro hm
    rcases hcases with h | ⟨hman, _⟩
    · exact h
    · rw [hm] at hman
      exact absurd hman (by simp)

/-- A one-producer/one-consumer delivery fixture. -/
def feedEdge : Edge := ⟨"a", "out", "c", "in", false⟩

/-- A constant-edge fixture. -/
def constEdge : Edge := ⟨"a", "out", "b", "in", true⟩

/-- A non-constant edge into the same port as `constEdge`. -/
def freshEdge : Edge := ⟨"a", "out", "b", "in", false⟩

/-- Wiring state with a pending value and a stored constant on port
`in` of node `b`. -/
def mixedState : QueuedNodeValuesState :=
  ⟨[("b", [("in", [5])])], [("b", [("in", [1])])]⟩

/-- Wiring state whose queue for `(b, in)` is empty but whose constant
is set. -/
def drainedState : QueuedNodeValuesState :=
  ⟨[("b", [("in", [])])], [("b", [("in", [1])])]⟩

/-- Wiring state with both a queued value and a constant on `(n, p)`. -/
def bothState : QueuedNodeValuesState :=
  ⟨[("n", [("p", [7, 8])])], [("n", [("p", [9])])]⟩

/-- A state holding an unrelated queue, for the frame condition. -/
def frameState : QueuedNodeValuesState := ⟨[("x", [("q", [3])])], []⟩

/-- A machine state used for the checkpoint round trip. -/
def sampleMachineState : MachineState :=
  ⟨⟨[("n", [("p", [1, 2])])], [("m", [("q", [3])])]⟩,
    [⟨"a", "o", "b", "i", false⟩, ⟨"a", "o2", "c", "i2", true⟩], [0, 3]⟩

/-- Graph with a single node whose handler will throw. -/
def boomGraph : GraphDescriptor := ⟨[⟨"a", "boomType", []⟩], []⟩

/-- Context whose every handler rejects with "boom" and requires no
inputs. -/
def boomCtx : TraversalContext :=
  ⟨boomGraph, fun _ => fun _ => .error "boom", fun _ => []⟩

/-- Graph with a single node of a type requiring one input. -/
def skipGraph : GraphDescriptor := ⟨[⟨"b", "t", []⟩], []⟩

/-- A registry of trivially succeeding handlers. -/
def okHandlers : String → NodeHandlerFunction := fun _ => fun _ => .ok []

/-- A registry of rejecting handlers. -/
def errHandlers : String → NodeHandlerFunction := fun _ => fun _ => .error "x"

/-- Every node type requires the port `needed`. -/
def reqOne : String → List PortName := fun _ => ["needed"]

/-- A URL environment without `URL.canParse`, whose constructor accepts
a single string. -/
def legacyURLApi : URLApi :=
  ⟨none, fun s => if s = "http://x" then some s else none⟩

/-- A module editor state holding two outstanding lint errors and
unsaved changes. -/
def erroredEditor : ModuleEditorState :=
  ⟨some "let x =", 2, some true, some "m",
    [("m", ⟨"code", ⟨none, "", false⟩⟩)], true⟩

theorem wire_deliver_exactly_once_witness :
    alookup [("out", (1 : NodeValue))] "out" = some 1 ∧
    qGet (wireOutputs ⟨[], []⟩ [feedEdge] [("out", 1)]).state "c" "in" = [1] ∧
    qGet (useInputs (wireOutputs ⟨[], []⟩ [feedEdge] [("out", 1)]) "c"
      [("in", 1)]).state "c" "in" = [] :=
  ⟨by decide,
    (wire_deliver_exactly_once ⟨[], []⟩ [feedEdge] [("out", 1)] feedEdge 1
      (by decide) (by decide)).1,
    (wire_deliver_exactly_once ⟨[], []⟩ [feedEdge] [("out", 1)] feedEdge 1
      (by decide) (by decide)).2.2 (by decide) [("in", 1)] (by decide)⟩

theorem constant_edge_persistence_witness :
    qGet (wireOutputs ⟨[], []⟩ [constEdge] [("out", 1)]).constants "b" "in" = [1] ∧
    qGet (([WiringOp.use "b" [("in", 5)],
        WiringOp.wire [freshEdge] [("out", 2)]].foldl applyOp
      mixedState)).constants "b" "in" = qGet mixedState.constants "b" "in" ∧
    (useInputs mixedState "b" [("in", 5)]).constants = mixedState.constants ∧
    alookup (getAvailableInputs drainedState "b") "in" = some 1 :=
  ⟨constant_edge_persistence.1 ⟨[], []⟩ [constEdge] [("out", 1)] constEdge 1
      (by decide) (by decide),
    constant_edge_persistence.2.1
      [WiringOp.use "b" [("in", 5)], WiringOp.wire [freshEdge] [("out", 2)]]
      mixedState "b" "in"
      (by
        intro op hop
        rcases List.mem_cons.mp hop with h | h
        · subst h
          trivial
        · rw [List.mem_singleton] at h
          subst h
          exact (by decide :
            deliveries [freshEdge] [("out", 2)] "b" "in" true = [])),
    constant_edge_persistence.2.2.1 mixedState "b" [("in", 5)],
    constant_edge_persistence.2.2.2 drainedState "b" "in" (by decide) (by decide)
      (by decide)⟩

theorem checkpoint_roundtrip_witness :
    restore (save sampleMachineState) = some sampleMachineState ∧
    save sampleMachineState = save sampleMachineState :=
  ⟨(checkpoint_roundtrip sampleMachineState).1,
    ((checkpoint_roundtrip sampleMachineState).2 sampleMachineState
      (checkpoint_roundtrip sampleMachineState).1).2⟩

theorem handler_error_halts_witness :
    missingFor boomCtx ⟨[], []⟩ "a" = [] ∧
    runFuel boomCtx 3 ⟨⟨[], []⟩, [⟨"e", "o", "a", "i", false⟩], []⟩ [] =
      (.failed ⟨"boom", descriptorOf boomGraph "a", inputsFor boomCtx ⟨[], []⟩ "a"⟩,
        [.nodestart "a" (inputsFor boomCtx ⟨[], []⟩ "a"),
         .error ⟨"boom", descriptorOf boomGraph "a",
           inputsFor boomCtx ⟨[], []⟩ "a"⟩]) :=
  ⟨rfl,
    handler_error_halts.2.2 boomCtx ⟨[], []⟩ ⟨"e", "o", "a", "i", false⟩ [] []
      "boom" 2 [] rfl rfl⟩

theorem missing_input_skips_witness :
    missingFor ⟨skipGraph, okHandlers, reqOne⟩ ⟨[], []⟩ "b" ≠ [] ∧
    step ⟨skipGraph, okHandlers, reqOne⟩
        ⟨⟨[], []⟩, [⟨"a", "o", "b", "i", false⟩], []⟩ =
      .next ⟨⟨[], []⟩, [], []⟩ [.skip "b" [] ["needed"]] true [] ∧
    step ⟨skipGraph, errHandlers, reqOne⟩
        ⟨⟨[], []⟩, [⟨"a", "o", "b", "i", false⟩], []⟩ =
      step ⟨skipGraph, okHandlers, reqOne⟩
        ⟨⟨[], []⟩, [⟨"a", "o", "b", "i", false⟩], []⟩ :=
  ⟨by decide,
    (missing_input_skips skipGraph okHandlers errHandlers reqOne ⟨[], []⟩
      ⟨"a", "o", "b", "i", false⟩ [] [] (by decide)).1,
    (missing_input_skips skipGraph okHandlers errHandlers reqOne ⟨[], []⟩
      ⟨"a", "o", "b", "i", false⟩ [] [] (by decide)).2⟩

theorem queued_value_takes_precedence_witness :
    portKeysNodup bothState.state "n" ∧ portKeysNodup bothState.constants "n" ∧
    qGet bothState.state "n" "p" ≠ [] ∧
    alookup (getAvailableInputs bothState "n") "p" = some 7 :=
  ⟨by decide, by decide, by decide,
    (queued_value_takes_precedence bothState "n" "p" (by decide)
      (by decide)).1 (by decide)⟩

theorem wireOutputs_frame_witness :
    (∀ e ∈ [Edge.mk "a" "missing" "b" "i" false], e.toNode = "x" →
      e.inPort = "q" → alookup [("out", (1 : NodeValue))] e.out = none) ∧
    qGet (wireOutputs frameState [⟨"a", "missing", "b", "i", false⟩]
      [("out", 1)]).state "x" "q" = qGet frameState.state "x" "q" :=
  ⟨by decide,
    ((wireOutputs_frame frameState [⟨"a", "missing", "b", "i", false⟩]
      [("out", 1)]).2 "x" "q" (by decide)).1⟩

theorem canParse_total_agrees_witness :
    canParse legacyURLApi "http://x" =
      (legacyURLApi.construct "http://x").isSome :=
  canParse_total_agrees legacyURLApi (fun _ h => Option.noConfusion h) "http://x"

theorem module_editor_error_noop_witness :
    0 < erroredEditor.errorCount ∧
    (processEditorCodeWithEnvironment id id erroredEditor true false).1 =
      erroredEditor :=
  ⟨by decide, (module_editor_error_noop id id erroredEditor true (by decide)).1⟩

end Breadboard
